import Mathlib

/-!
# Verification of the gvcode text-editing core

A shallow embedding of the gvcode repository's piece-table document buffer
(`buffer/piecetable.go`), the Bidi line layout (`internal/layout/line.go`)
and the completion engine (`addons/completion/{session,default}.go`),
together with proofs of the specification's testable properties.

Conventions:
* Go runes are modelled as `Nat` code points; a Go `string` is a `List Nat`
  of runes (the byte view is recovered through the UTF-8 length function).
* Go machine `int`s that can be negative at an API boundary are `Int`;
  values that are provably non-negative are `Nat`.
* Mutating methods become functions from the receiver to an updated copy.
* Pointer identity of `*piece` nodes is modelled by a `pid` tag that the
  table hands out from a fresh-id counter.
-/

namespace Gvcode

/-- Number of bytes of the UTF-8 encoding of a code point, exactly as Go's
`utf8.RuneLen`/`EncodeRune` compute it (surrogates and out-of-range code
points encode as the 3-byte replacement rune `RuneError`). -/
def utf8RuneLen (c : Nat) : Nat :=
  if c < 0x80 then 1
  else if c < 0x800 then 2
  else if 0xD800 ≤ c ∧ c < 0xE000 then 3
  else if c < 0x10000 then 3
  else if c < 0x110000 then 4
  else 3

/-- Byte length of the UTF-8 encoding of a rune sequence (`len` of the Go
string holding these runes). -/
def utf8Len (l : List Nat) : Nat := (l.map utf8RuneLen).sum

/-- Runes of a Lean string literal, for concrete test inputs. -/
def strRunes (s : String) : List Nat := s.toList.map Char.toNat

/-! ## The piece table (`buffer/piecetable.go`) -/

/-- Go `type bufSrc uint8`: which append-only buffer a piece points into. -/
inductive BufSrc
  | original
  | modify
deriving DecidableEq, Repr

/-- Go `type action uint8`: the kind of the table's last recorded action. -/
inductive PtAction
  | actionUnknown
  | actionInsert
deriving DecidableEq, Repr

/-- A piece of the document: a reference to a rune/byte run of one of the
two buffers.  `pid` models the Go node's pointer identity (`*piece`); the
remaining fields are the source fields `source`, `offset` (rune offset in
the buffer), `length` (rune length), `byteOff` and `byteLength`. -/
structure Piece where
  pid : Nat
  source : BufSrc
  offset : Nat
  length : Nat
  byteOff : Nat
  byteLength : Nat
deriving DecidableEq, Repr

/-- Modelled from the spec: the `pieceRange` undo unit is "a captured span
of the pre-edit piece list with saved `seq_rune_len`, `seq_byte_len`, and
the rune index at which the edit happened" whose `Restore()` "re-splices
the range back into the list" (its implementation file is not part of the
given sources).  The linked-list boundary pointers are modelled by the
index `start` of the span in the piece list together with `count`, the
number of pieces currently occupying that span in the list; `pieces` is
the saved span that `Restore` re-splices. -/
structure PieceRange where
  start : Nat
  count : Nat
  pieces : List Piece
  seqLength : Nat
  seqBytes : Nat
  runeIndex : Nat
deriving DecidableEq, Repr

/-- The piece table (`type PieceTable struct`).  The two text buffers hold
runes; stacks are lists with the head as top; `lastInsertPiece` holds the
`pid` of the last inserted piece node (`nil` = `none`); `nextPid` is the
fresh-identity counter backing the pointer model. -/
structure PieceTable where
  originalBuf : List Nat
  modifyBuf : List Nat
  seqLength : Nat
  seqBytes : Nat
  undoStack : List PieceRange
  redoStack : List PieceRange
  pieces : List Piece
  lastAction : PtAction
  lastActionEndIdx : Nat
  lastInsertPiece : Option Nat
  nextPid : Nat
deriving DecidableEq, Repr

/-- Method `getBuf`: selects the buffer a source tag refers to. -/
def getBuf (pt : PieceTable) (source : BufSrc) : List Nat :=
  match source with
  | .original => pt.originalBuf
  | .modify => pt.modifyBuf

/-- Modelled from the spec: `textBuffer.bytesForRange(runeOff, runeCnt)`
of the missing buffer file — the byte length of the `runeCnt` runes
starting at rune `runeOff`, through the buffer's rune → byte index. -/
def bufBytesForRange (buf : List Nat) (runeOff runeCnt : Nat) : Nat :=
  utf8Len ((buf.drop runeOff).take runeCnt)

/-- Modelled from the spec: `textBuffer.RuneOffset(runeOff)` of the missing
buffer file — the byte offset of rune `runeOff` in the buffer. -/
def bufRuneOffset (buf : List Nat) (runeOff : Nat) : Nat :=
  utf8Len (buf.take runeOff)

/-- Method `addToBuffer`: returns `(runeOff, byteOff, runeCnt)` of the added text
and the updated table.  Empty text returns zeros without touching any
buffer; `original` text replaces the original buffer (`set`), `modify`
text is appended to the modify buffer (`append`), whose returned offsets
point at the old end of that buffer. -/
def addToBuffer (pt : PieceTable) (source : BufSrc) (text : List Nat) :
    (Nat × Nat × Nat) × PieceTable :=
  if text.length = 0 then ((0, 0, 0), pt)
  else
    match source with
    | .original => ((0, 0, text.length), { pt with originalBuf := text })
    | .modify =>
        ((pt.modifyBuf.length, utf8Len pt.modifyBuf, text.length),
          { pt with modifyBuf := pt.modifyBuf ++ text })

/-- Constructor `NewPieceTable` followed by `init`: an empty table, then — when the
initial text is non-empty — one piece covering the original buffer. -/
def NewPieceTable (text : List Nat) : PieceTable :=
  let base : PieceTable :=
    { originalBuf := [], modifyBuf := [], seqLength := 0, seqBytes := 0,
      undoStack := [], redoStack := [], pieces := [],
      lastAction := .actionUnknown, lastActionEndIdx := 0,
      lastInsertPiece := none, nextPid := 1 }
  if text.length = 0 then base
  else
    { base with
      originalBuf := text,
      pieces := [{ pid := 0, source := .original, offset := 0,
                   length := text.length, byteOff := 0,
                   byteLength := utf8Len text }],
      seqLength := text.length,
      seqBytes := utf8Len text }

/-- Modelled from the spec: `pieceList.FindPiece(runeIndex)` of the missing
piece-list file — "lookup by rune index returns
`(piece, rune_offset_within_piece)`".  The piece is identified by its list
index; a rune index at the very end returns `(pieces.length, 0)`, the
boundary in front of the tail sentinel. -/
def findPiece : List Piece → Nat → Nat × Nat
  | [], _ => (0, 0)
  | p :: ps, r =>
    if r < p.length then (0, r)
    else
      let q := findPiece ps (r - p.length)
      (q.1 + 1, q.2)

/-- Splice: replace the `n` pieces starting at list index `i` by `repl`.
This is what a `pieceRange.Swap`/`Restore` does to the linked list. -/
def splice (l : List Piece) (i n : Nat) (repl : List Piece) : List Piece :=
  l.take i ++ repl ++ l.drop (i + n)

/-- The span of `n` pieces starting at index `i`. -/
def subSpan (l : List Piece) (i n : Nat) : List Piece :=
  (l.drop i).take n

/-- Method `tryAppendToLastPiece`: the coalescing fast path of `Insert`.  When the
last action was an insert ending exactly at `runeIndex`, the text has at
most one rune (`utf8.RuneCountInString(text) > 1` fails) and a last insert
piece exists, the text is appended to the modify buffer and the node
pointed to by `lastInsertPiece` is grown in place (the `pid`-directed map
models the pointer write). -/
def tryAppendToLastPiece (pt : PieceTable) (runeIndex : Nat) (text : List Nat) :
    Bool × PieceTable :=
  if pt.lastAction ≠ PtAction.actionInsert ∨ runeIndex ≠ pt.lastActionEndIdx ∨
      pt.lastInsertPiece = none ∨ text.length > 1 then
    (false, pt)
  else
    let r := addToBuffer pt .modify text
    let textRunes := r.1.2.2
    let pt1 := r.2
    (true,
      { pt1 with
        pieces := pt1.pieces.map (fun p =>
          if some p.pid = pt.lastInsertPiece then
            { p with length := p.length + textRunes,
                     byteLength := p.byteLength + utf8Len text }
          else p),
        seqLength := pt1.seqLength + textRunes,
        seqBytes := pt1.seqBytes + utf8Len text,
        lastAction := .actionInsert,
        lastActionEndIdx := runeIndex + textRunes })

/-- Method `insertAtBoundary`: insert at the boundary in front of the piece at
list index `boundaryIdx`.  The undo entry is a boundary (empty) range that
after the swap covers the single new piece. -/
def insertAtBoundary (pt : PieceTable) (runeIndex : Nat) (text : List Nat)
    (boundaryIdx : Nat) : PieceTable :=
  let r := addToBuffer pt .modify text
  let textRuneOff := r.1.1
  let textByteOff := r.1.2.1
  let textRunes := r.1.2.2
  let pt1 := r.2
  let newPiece : Piece :=
    { pid := pt1.nextPid, source := .modify, offset := textRuneOff,
      length := textRunes, byteOff := textByteOff,
      byteLength := utf8Len text }
  let oldPieces : PieceRange :=
    { start := boundaryIdx, count := 1, pieces := [],
      seqLength := pt1.seqLength, seqBytes := pt1.seqBytes,
      runeIndex := runeIndex }
  { pt1 with
    pieces := splice pt1.pieces boundaryIdx 0 [newPiece],
    undoStack := oldPieces :: pt1.undoStack,
    seqLength := pt1.seqLength + textRunes,
    seqBytes := pt1.seqBytes + utf8Len text,
    lastAction := .actionInsert,
    lastActionEndIdx := runeIndex + textRunes,
    lastInsertPiece := some pt1.nextPid,
    nextPid := pt1.nextPid + 1 }

/-- A throwaway piece used as the (never reached) default of a guarded
list lookup. -/
def dfltPiece : Piece :=
  { pid := 0, source := .original, offset := 0, length := 0, byteOff := 0,
    byteLength := 0 }

/-- Method `insertInMiddle`: split the piece at list index `pieceIdx` at rune
offset `inRuneOff` into left / new middle / right, computing the left and
right byte geometry through the owning buffer's rune → byte index, capture
the old piece as the undo range and swap the three new pieces in. -/
def insertInMiddle (pt : PieceTable) (runeIndex : Nat) (text : List Nat)
    (pieceIdx : Nat) (inRuneOff : Nat) : PieceTable :=
  let r := addToBuffer pt .modify text
  let textRuneOff := r.1.1
  let textByteOff := r.1.2.1
  let textRunes := r.1.2.2
  let pt1 := r.2
  let oldPiece := pt1.pieces.getD pieceIdx dfltPiece
  let buf := getBuf pt1 oldPiece.source
  let newPiece : Piece :=
    { pid := pt1.nextPid, source := .modify, offset := textRuneOff,
      length := textRunes, byteOff := textByteOff,
      byteLength := utf8Len text }
  let left : Piece :=
    { pid := pt1.nextPid + 1, source := oldPiece.source,
      offset := oldPiece.offset, length := inRuneOff,
      byteOff := oldPiece.byteOff,
      byteLength := bufBytesForRange buf oldPiece.offset inRuneOff }
  let right : Piece :=
    { pid := pt1.nextPid + 2, source := oldPiece.source,
      offset := oldPiece.offset + inRuneOff,
      length := oldPiece.length - inRuneOff,
      byteOff := bufRuneOffset buf (oldPiece.offset + inRuneOff),
      byteLength := bufBytesForRange buf (oldPiece.offset + inRuneOff)
        (oldPiece.length - inRuneOff) }
  let oldPieces : PieceRange :=
    { start := pieceIdx, count := 3, pieces := [oldPiece],
      seqLength := pt1.seqLength, seqBytes := pt1.seqBytes,
      runeIndex := runeIndex }
  { pt1 with
    pieces := splice pt1.pieces pieceIdx 1 [left, newPiece, right],
    undoStack := oldPieces :: pt1.undoStack,
    seqLength := pt1.seqLength + textRunes,
    seqBytes := pt1.seqBytes + utf8Len text,
    lastAction := .actionInsert,
    lastActionEndIdx := runeIndex + textRunes,
    lastInsertPiece := some pt1.nextPid,
    nextPid := pt1.nextPid + 3 }

/-- Method `PieceTable.Insert`: fails (no mutation) outside `[0, seqLength]`; on
success clears the redo stack, then takes the coalescing fast path or the
boundary / middle insert according to `FindPiece`. -/
def Insert (pt : PieceTable) (runeIndex : Int) (text : List Nat) :
    Bool × PieceTable :=
  if runeIndex > (pt.seqLength : Int) ∨ runeIndex < 0 then (false, pt)
  else
    let rIdx := runeIndex.toNat
    let pt0 := { pt with redoStack := [] }
    let tr := tryAppendToLastPiece pt0 rIdx text
    if tr.1 then (true, tr.2)
    else
      let f := findPiece pt0.pieces rIdx
      if f.2 = 0 then (true, insertAtBoundary pt0 rIdx text f.1)
      else (true, insertInMiddle pt0 rIdx text f.1 f.2)

/-- Method `PieceTable.Erase`: the source's method body is empty — it takes no
range arguments and performs no mutation at all. -/
def Erase (pt : PieceTable) : PieceTable := pt

/-- Method `PieceTable.Replace`: the source's method body is empty as well. -/
def Replace (pt : PieceTable) : PieceTable := pt

/-- Methods `restorePieceRange` / `pieceRange.Restore`: re-splice the saved span
into the list; the range object afterwards denotes the span it replaced
(the nodes swap roles, as the linked-list boundary pointers persist), and
the table's sequence counters are overwritten by the saved ones while the
range captures the pre-restore counters. -/
def restorePieceRange (pt : PieceTable) (rng : PieceRange) :
    PieceTable × PieceRange :=
  let replaced := subSpan pt.pieces rng.start rng.count
  ({ pt with
      pieces := splice pt.pieces rng.start rng.count rng.pieces,
      seqLength := rng.seqLength,
      seqBytes := rng.seqBytes },
   { start := rng.start, count := rng.pieces.length, pieces := replaced,
     seqLength := pt.seqLength, seqBytes := pt.seqBytes,
     runeIndex := rng.runeIndex })

/-- Method `undoRedo(src, dest)`: pop the next range from the source stack, do
the restore and push the range — which after `Restore` denotes the
replaced span — onto the destination stack.  (The Go code pushes the
`*pieceRange` pointer before calling `Restore`; the pushed object is the
post-restore range either way.) -/
def undoRedo (pt : PieceTable) (src dest : List PieceRange) :
    Bool × PieceTable × List PieceRange × List PieceRange :=
  match src with
  | [] => (false, pt, src, dest)
  | rng :: rest =>
    let r := restorePieceRange pt rng
    (true, r.1, rest, r.2 :: dest)

/-- Method `PieceTable.Undo`. -/
def Undo (pt : PieceTable) : Bool × PieceTable :=
  let r := undoRedo pt pt.undoStack pt.redoStack
  (r.1, { r.2.1 with undoStack := r.2.2.1, redoStack := r.2.2.2 })

/-- Method `PieceTable.Redo`. -/
def Redo (pt : PieceTable) : Bool × PieceTable :=
  let r := undoRedo pt pt.redoStack pt.undoStack
  (r.1, { r.2.1 with redoStack := r.2.2.1, undoStack := r.2.2.2 })

/-- The rune run a piece denotes inside its buffer. -/
def pieceRunes (pt : PieceTable) (p : Piece) : List Nat :=
  ((getBuf pt p.source).drop p.offset).take p.length

/-- The whole document as runes: the concatenation of the piece texts in
list order.  This is what `PieceTableReader.Text` reads (it walks the
piece list and emits each piece's buffer range). -/
def docRunes (pt : PieceTable) : List Nat :=
  (pt.pieces.map (pieceRunes pt)).flatten

/-! ## The reader view (`PieceTableReader`) -/

/-- The loop of `PieceTableReader.RuneOffset`: walk the piece list
accumulating byte and rune counts until the piece holding `runeOff` is
reached, then add the in-piece byte offset computed through the owning
buffer's rune → byte index. -/
def runeOffsetLoop (pt : PieceTable) :
    List Piece → Nat → Nat → Nat → Nat
  | [], bytes, _, _ => bytes
  | n :: rest, bytes, runes, runeOff =>
    if runes + n.length > runeOff then
      bytes + bufBytesForRange (getBuf pt n.source) n.offset (runeOff - runes)
    else
      runeOffsetLoop pt rest (bytes + n.byteLength) (runes + n.length) runeOff

/-- Method `PieceTableReader.RuneOffset`: byte offset of the rune at `runeOff`;
`0` on an empty sequence and `seqBytes` at or past the end. -/
def RuneOffset (pt : PieceTable) (runeOff : Nat) : Nat :=
  if pt.seqLength = 0 then 0
  else if runeOff ≥ pt.seqLength then pt.seqBytes
  else runeOffsetLoop pt pt.pieces 0 0 runeOff

/-- Modelled from the spec: the inverse rune ↔ byte translation
(`byte offset → rune index`) of the document-source view, not among the
given sources — the number of whole runes that fit in the first `b` bytes
of the text. -/
def runeIndexAtByte : List Nat → Nat → Nat
  | [], _ => 0
  | c :: cs, b =>
    if b < utf8RuneLen c then 0
    else 1 + runeIndexAtByte cs (b - utf8RuneLen c)

/-- Length of the fragment `getTextByRange(off, cnt)` returns; modelled
from the spec for the missing buffer file as the length of the byte slice
`[off, off+cnt)` of the buffer's byte content (equal to `cnt` whenever the
callers' offsets are in range). -/
def fragLen (buf : List Nat) (off cnt : Nat) : Nat :=
  min cnt (utf8Len buf - off)

/-- The piece-walking loop of `PieceTableReader.ReadAt`.  `expected` is the
original buffer size `len(p)`, `pRem` the space remaining in `p`; the loop
accumulates `bytes` over the pieces, copies from every piece that overlaps
the running `offset` and stops early once `total` reaches `expected`. -/
def readAtLoop (pt : PieceTable) (expected : Nat) :
    List Piece → Nat → Nat → Int → Int → Nat
  | [], _, total, _, _ => total
  | n :: rest, pRem, total, offset, bytes =>
    let bytes2 := bytes + (n.byteLength : Int)
    if bytes2 > offset then
      let fragStart := ((n.byteOff : Int) + (n.byteLength : Int) - (bytes2 - offset)).toNat
      let frag := fragLen (getBuf pt n.source) fragStart (bytes2 - offset).toNat
      let k := min pRem frag
      let total2 := total + k
      if total2 ≥ expected then total2
      else readAtLoop pt expected rest (pRem - k) total2 (offset + k) bytes2
    else readAtLoop pt expected rest pRem total offset bytes2

/-- Method `PieceTableReader.ReadAt` reduced to its observable result: the number
of bytes read into a buffer of length `plen` and whether `io.EOF` is
returned.  An empty buffer short-circuits to `(0, no-EOF)`; an offset at
or past the byte length yields `(0, EOF)`; otherwise the piece walk runs
and `io.EOF` is reported exactly when fewer than `plen` bytes were
copied. -/
def ReadAt (pt : PieceTable) (plen : Nat) (offset : Int) : Nat × Bool :=
  if plen = 0 then (0, false)
  else if offset ≥ (pt.seqBytes : Int) then (0, true)
  else
    let total := readAtLoop pt plen pt.pieces plen 0 offset 0
    (total, total < plen)

/-! ## Well-formedness

The invariants every table reachable through the API maintains: each piece
points at a real range of its buffer with a consistent byte length, and
the sequence counters are the piece sums. -/

/-- A piece's geometry is consistent with its owning buffer. -/
def PieceOk (pt : PieceTable) (p : Piece) : Prop :=
  p.offset + p.length ≤ (getBuf pt p.source).length ∧
  p.byteLength = bufBytesForRange (getBuf pt p.source) p.offset p.length

instance (pt : PieceTable) (p : Piece) : Decidable (PieceOk pt p) := by
  unfold PieceOk; infer_instance

/-- Table-wide well-formedness. -/
def WF (pt : PieceTable) : Prop :=
  (∀ p ∈ pt.pieces, PieceOk pt p) ∧
  pt.seqLength = (pt.pieces.map Piece.length).sum ∧
  pt.seqBytes = (pt.pieces.map Piece.byteLength).sum

instance (pt : PieceTable) : Decidable (WF pt) := by
  unfold WF; infer_instance

/-- Modelled from the spec: the reference semantics of §8 — "the reference
string obtained by applying the same sequence of edits to a plain string";
for `erase(start, end)` the reference removes the runes in `[start, end)`. -/
def refErase (s : List Nat) (startIdx endIdx : Nat) : List Nat :=
  s.take startIdx ++ s.drop endIdx

/-- The coalescing demo table of the spec's scenario 1: three adjacent
single-rune inserts on an empty document. -/
def coalesceDemo : PieceTable :=
  (Insert (Insert (Insert (NewPieceTable []) 0 (strRunes "a")).2
    1 (strRunes "b")).2 2 (strRunes "c")).2

/-- The runes a list of pieces denotes (the document restricted to those
pieces). -/
def runesOf (pt : PieceTable) (ps : List Piece) : List Nat :=
  (ps.map (pieceRunes pt)).flatten

/-! ## The Bidi line layout (`internal/layout/line.go`, `Line.recompute`)

A glyph keeps the fields `recompute` reads or writes: the X position and
advance (`fixed.Int26_6` values, i.e. integers), the
`text.FlagTowardOrigin` direction bit and the `text.FlagLineBreak` bit.
`Line.recompute` scans the glyphs, closing a run exactly when the
direction flag changes or the line ends (so the runs are the maximal
direction-uniform segments in logical order), lays the runs out left to
right accumulating `xOff` by each run's width, assigns X inside an RTL run
from the run's right edge downwards and inside an LTR run from the left
edge upwards, and ORs the line-break flag onto the line's final glyph.
The functional embedding splits those phases: `splitRuns` (the run
boundary detection of the loop), `layoutRun`/`layoutRuns` (the per-run
cursor assignment), `markLineBreakLast` (the `j == len(li.Glyphs)-1` flag
write, which touches no X).  The `li.RuneOff = runeOff` bookkeeping write
is omitted as no glyph geometry depends on it. -/

structure Glyph where
  x : Int
  advance : Int
  towardOrigin : Bool
  lineBreak : Bool
deriving DecidableEq, Repr

def dfltGlyph : Glyph :=
  { x := 0, advance := 0, towardOrigin := false, lineBreak := false }

/-- One step of run grouping: prepend a glyph to the current run when the
direction matches, else open a new run. -/
def runStep (g : Glyph) : List (List Glyph) → List (List Glyph)
  | [] => [[g]]
  | [] :: rest => [g] :: rest
  | (h :: t) :: rest =>
    if g.towardOrigin = h.towardOrigin then (g :: h :: t) :: rest
    else [g] :: (h :: t) :: rest

/-- The maximal direction-uniform runs of the line, in logical order —
the run boundaries the source loop detects via `endOfRun`. -/
def splitRuns (glyphs : List Glyph) : List (List Glyph) :=
  glyphs.foldr runStep []

/-- Function `runWidth`: the total advance of a run. -/
def runWidth (run : List Glyph) : Int :=
  (run.map Glyph.advance).sum

/-- LTR branch: "start the cursor at the LEFT edge and add advances". -/
def ltrAssign (cursor : Int) : List Glyph → List Glyph
  | [] => []
  | g :: gs => { g with x := cursor } :: ltrAssign (cursor + g.advance) gs

/-- RTL branch: "start the cursor at the RIGHT edge and subtract
advances". -/
def rtlAssign (cursor : Int) : List Glyph → List Glyph
  | [] => []
  | g :: gs => { g with x := cursor - g.advance } :: rtlAssign (cursor - g.advance) gs

/-- Lay one run out starting at `base`, choosing the branch by the
direction flag of the run's first glyph (`isRTL`). -/
def layoutRun (base : Int) : List Glyph → List Glyph
  | [] => []
  | g :: gs =>
    if g.towardOrigin then rtlAssign (base + runWidth (g :: gs)) (g :: gs)
    else ltrAssign base (g :: gs)

/-- Lay all runs out left to right, advancing `xOff` by each run's width. -/
def layoutRuns (alignOff : Int) : Int → List (List Glyph) → List Glyph
  | _, [] => []
  | xOff, run :: rest =>
    layoutRun (alignOff + xOff) run ++ layoutRuns alignOff (xOff + runWidth run) rest

/-- OR the line-break flag onto the final glyph. -/
def markLineBreakLast : List Glyph → List Glyph
  | [] => []
  | [g] => [{ g with lineBreak := true }]
  | g :: g2 :: gs => g :: markLineBreakLast (g2 :: gs)

/-- Method `Line.recompute`: re-computes the X positions of the line's glyphs
for Bidi text and flags the final glyph as the line break. -/
def recompute (alignOff : Int) (glyphs : List Glyph) : List Glyph :=
  markLineBreakLast (layoutRuns alignOff 0 (splitRuns glyphs))

/-- Sum of the advances of a glyph list. -/
def advSum (glyphs : List Glyph) : Int :=
  (glyphs.map Glyph.advance).sum

/-- Total width of a list of runs. -/
def runsWidth (runs : List (List Glyph)) : Int :=
  (runs.map runWidth).sum

/-! ## The completion engine (`addons/completion/session.go`, `default.go`)

The `gvcode` package types the completion add-on uses (`Position`,
`EditRange`, `CompletionContext`, `Trigger`, `Completor`,
`CompletionCandidate`) are declared in repository files that are not part
of the given sources; they are modelled from the spec (§4.6, §6) and from
how `session.go`/`default.go` read them.  Candidates are opaque to the
session logic (only passed through `Suggest`/`FilterAndRank`), so they
are modelled as bare identifiers.  The popup handle of
`delegatedCompletor` and the editor-side `RegisterCommand`/`onKey` wiring
only concern rendering and key routing and are outside the model. -/

/-- Modelled from the spec: a line/column/rune cursor position of the
`gvcode` package (zero value = all zeros). -/
structure Position where
  line : Int
  column : Int
  runes : Int
deriving DecidableEq, Repr

/-- Modelled from the spec: an edit range between two positions.  The Go
field `End` is `endPos` here (`end` is reserved in Lean). -/
structure EditRange where
  start : Position
  endPos : Position
deriving DecidableEq, Repr

/-- The Go zero value `Position{}`. -/
def zeroPosition : Position := { line := 0, column := 0, runes := 0 }

/-- The Go zero value `EditRange{}`, which `session.Update` compares
against. -/
def zeroEditRange : EditRange := { start := zeroPosition, endPos := zeroPosition }

/-- Modelled from the spec: a key binding `(key, mods)` of a trigger. -/
@[ext]
structure KeyBinding where
  name : String
  modifiers : Nat
deriving DecidableEq, Repr

/-- Modelled from the spec: `Trigger { characters, key_binding }`. -/
structure Trigger where
  characters : List String
  keyBinding : KeyBinding
deriving DecidableEq, Repr

/-- Completion candidates are opaque to the session/registration logic
modelled here; an identifier stands for the full `CompletionCandidate`. -/
abbrev Candidate := Nat

/-- Modelled from the spec: the completion context handed to `OnText` —
the freshly typed input and the caret position.  (The pixel `Coords`
field only positions the popup and is omitted.) -/
structure CompletionContext where
  input : String
  position : Position
deriving DecidableEq, Repr

/-- Modelled from the spec: a registered completor — its trigger and its
synchronous `Suggest` / `FilterAndRank` callbacks. -/
structure Completor where
  trigger : Trigger
  suggest : CompletionContext → List Candidate
  filterAndRank : String → List Candidate → List Candidate

/-- Go `type triggerKind uint8`. -/
inductive TriggerKind
  | autoTrigger
  | charTrigger
  | keyTrigger
deriving DecidableEq, Repr

/-- Struct `triggerState`: the activated completor plus the trigger bookkeeping
(`triggered` marks a fresh session whose first `Update` fetches the
initial candidates and records the trigger input). -/
structure TriggerState where
  kind : TriggerKind
  completor : Completor
  triggered : Bool
  triggerChars : String

/-- A completion `session`. -/
structure Session where
  ctx : CompletionContext
  state : TriggerState
  canceled : Bool
  prefixRunes : List Char
  prefixRange : EditRange
  candidates : List Candidate

/-- Constructor `newSession`. -/
def newSession (completor : Completor) (kind : TriggerKind) : Session :=
  { ctx := { input := "", position := zeroPosition },
    state := { kind := kind, completor := completor, triggered := true,
               triggerChars := "" },
    canceled := false, prefixRunes := [], prefixRange := zeroEditRange,
    candidates := [] }

/-- List `terminatingChars`: `[ '\x7b', '\x7d', '(', ')', ',', ';', ' ', '\n',
'\t', '.' ]` (braces, newline and tab written by code point). -/
def terminatingChars : List Char :=
  [Char.ofNat 123, Char.ofNat 125, '(', ')', ',', ';', ' ',
   Char.ofNat 10, Char.ofNat 9, '.']

/-- Function `hasTerminateChar`: the first rune of a non-empty input is one of the
terminating characters. -/
def hasTerminateChar (input : String) : Bool :=
  if input = "" then false
  else terminatingChars.contains (input.toList.headD ' ')

/-- Function `isSymbolChar`: ASCII letter, digit or underscore (`a-z`, `A-Z`,
`0-9`, `_` by code point). -/
def isSymbolChar (ch : Char) : Bool :=
  (97 ≤ ch.toNat && ch.toNat ≤ 122) || (65 ≤ ch.toNat && ch.toNat ≤ 90) ||
  (48 ≤ ch.toNat && ch.toNat ≤ 57) || (ch.toNat == 95)

/-- Method `session.makeInvalid`: cancel and clear prefix, prefix range and
candidate list. -/
def makeInvalid (s : Session) : Session :=
  { s with canceled := true, prefixRunes := [], prefixRange := zeroEditRange,
           candidates := [] }

/-- The prefix-range update of `session.Update`: on the first symbol input
the start column backs up over the input, and the end always moves to the
current position (with `Runes` zeroed). -/
def updatePrefixRange (rng : EditRange) (ctx : CompletionContext) : EditRange :=
  let rng1 :=
    if rng = zeroEditRange then
      { rng with start := { line := ctx.position.line,
                            column := max 0 (ctx.position.column -
                              (ctx.input.toList.length : Int)),
                            runes := 0 } }
    else rng
  { rng1 with endPos := { ctx.position with runes := 0 } }

/-- Method `session.Update`. -/
def sessionUpdate (s : Session) (ctx : CompletionContext) :
    Session × List Candidate :=
  if s.canceled then (s, [])
  else
    let s1 :=
      if s.state.triggered then
        { s with
          candidates := s.state.completor.suggest ctx,
          state :=
            { s.state with triggerChars := ctx.input, triggered := false },
          prefixRunes := [],
          prefixRange := zeroEditRange }
      else s
    if hasTerminateChar ctx.input ∧ ctx.input ≠ s1.state.triggerChars then
      (makeInvalid s1, [])
    else
      let s2 := { s1 with ctx := ctx }
      let s3 :=
        if ctx.input ≠ "" ∧ isSymbolChar (ctx.input.toList.headD ' ') then
          { s2 with prefixRunes := s2.prefixRunes ++ ctx.input.toList,
                    prefixRange := updatePrefixRange s2.prefixRange ctx }
        else s2
      (s3, s3.state.completor.filterAndRank (String.mk s3.prefixRunes)
        s3.candidates)

/-- Method `session.IsValid` on the nilable session pointer. -/
def isValid : Option Session → Bool
  | none => false
  | some s => !s.canceled

/-- Struct `DefaultCompletion`: the registered completors, the published
candidate list and the (nilable) active session.  The `Editor` back
pointer only routes key bindings and is outside the model. -/
structure DefaultCompletion where
  completors : List Completor
  candidates : List Candidate
  session : Option Session

/-- Method `DefaultCompletion.Cancel`. -/
def CompletionCancel (dc : DefaultCompletion) : DefaultCompletion :=
  { dc with
    session :=
      match dc.session with
      | some s => if !s.canceled then some (makeInvalid s) else some s
      | none => none,
    candidates := [] }

/-- Function `canTrigger`: explicit trigger characters first, then any symbol
character. -/
def canTrigger (tr : Trigger) (input : String) : Bool :=
  tr.characters.contains input || isSymbolChar (input.toList.headD ' ')

/-- Method `DefaultCompletion.OnText`: update a valid session first and return
if it stays valid; otherwise fall through and let the input open a new
session with the first completor whose trigger accepts it. -/
def OnText (dc : DefaultCompletion) (ctx : CompletionContext) :
    DefaultCompletion :=
  if ctx.input = "" then CompletionCancel dc
  else
    let afterUpd : DefaultCompletion × Bool :=
      match dc.session with
      | some s =>
        if !s.canceled then
          let r := sessionUpdate s ctx
          ({ dc with session := some r.1, candidates := r.2 }, !r.1.canceled)
        else (dc, false)
      | none => (dc, false)
    if afterUpd.2 then afterUpd.1
    else
      let dc2 := afterUpd.1
      match dc2.completors.find? (fun c => canTrigger c.trigger ctx.input) with
      | none => dc2
      | some cmp =>
        let dc3 :=
          if isValid dc2.session then dc2
          else { dc2 with session := some (newSession cmp TriggerKind.charTrigger) }
        match dc3.session with
        | some s =>
          let r := sessionUpdate s ctx
          { dc3 with session := some r.1, candidates := r.2 }
        | none => dc3

/-- Method `DefaultCompletion.AddCompletor` reduced to its observable effect on
the completor registry: the boolean is `true` when the
"duplicated key binding" error is returned.  (The `RegisterCommand` call
installs an editor key filter and does not touch the registry.) -/
def AddCompletor (dc : DefaultCompletion) (completor : Completor) :
    DefaultCompletion × Bool :=
  let trigger := completor.trigger
  let duplicatedKey := dc.completors.any (fun cm =>
    cm.trigger.keyBinding.name == trigger.keyBinding.name &&
    cm.trigger.keyBinding.modifiers == trigger.keyBinding.modifiers)
  if duplicatedKey then (dc, true)
  else ({ dc with completors := dc.completors ++ [completor] }, false)

/-- The scenario completor: trigger characters `["."]`, accepting
completor callbacks. -/
def demoCompletor : Completor :=
  { trigger := { characters := ["."],
                 keyBinding := { name := "", modifiers := 0 } },
    suggest := fun _ => [1, 2],
    filterAndRank := fun _ cs => cs }

def demoCompletion : DefaultCompletion :=
  { completors := [demoCompletor], candidates := [], session := none }

def ctxFoo : CompletionContext :=
  { input := "foo", position := { line := 0, column := 3, runes := 3 } }

def ctxDot : CompletionContext :=
  { input := ".", position := { line := 0, column := 4, runes := 4 } }

def demoAfterFoo : DefaultCompletion := OnText demoCompletion ctxFoo

def demoAfterDot : DefaultCompletion := OnText demoAfterFoo ctxDot

/-- Two completors sharing the key binding `("ctrl-space", 3)`. -/
def kbCompletor1 : Completor :=
  { trigger :=
      { characters := [],
        keyBinding := { name := "ctrl-space", modifiers := 3 } },
    suggest := fun _ => [],
    filterAndRank := fun _ cs => cs }

def kbCompletor2 : Completor :=
  { trigger :=
      { characters := ["."],
        keyBinding := { name := "ctrl-space", modifiers := 3 } },
    suggest := fun _ => [],
    filterAndRank := fun _ cs => cs }

def kbCompletion : DefaultCompletion :=
  { completors := [kbCompletor1], candidates := [], session := none }

/-- Observable: the buffered prefix of a nilable session. -/
def sessionPrefixStr : Option Session → String
  | none => ""
  | some s => String.mk s.prefixRunes

/-- Observable: the recorded trigger input of a nilable session. -/
def sessionTrigStr : Option Session → String
  | none => ""
  | some s => s.state.triggerChars

/-- Observable: whether updating a nilable session with an input leaves
it canceled. -/
def sessionUpdateCanceled : Option Session → CompletionContext → Bool
  | none, _ => true
  | some s, ctx => (sessionUpdate s ctx).1.canceled

/-! ## Theorems -/

theorem utf8RuneLen_pos (c : Nat) : 0 < utf8RuneLen c := by
  unfold utf8RuneLen
  split
  · exact Nat.one_pos
  split
  · exact Nat.zero_lt_two
  split
  · exact Nat.zero_lt_succ 2
  split
  · exact Nat.zero_lt_succ 2
  split
  · exact Nat.zero_lt_succ 3
  · exact Nat.zero_lt_succ 2

theorem utf8Len_nil : utf8Len [] = 0 := rfl

theorem utf8Len_cons (c : Nat) (l : List Nat) :
    utf8Len (c :: l) = utf8RuneLen c + utf8Len l := rfl

theorem utf8Len_append (l₁ l₂ : List Nat) :
    utf8Len (l₁ ++ l₂) = utf8Len l₁ + utf8Len l₂ := by
  simp [utf8Len]

example : docRunes (NewPieceTable (strRunes "hello")) = strRunes "hello" := by decide

example :
    docRunes (Insert (NewPieceTable (strRunes "hello")) 2 (strRunes "XY")).2 =
      strRunes "heXYllo" := by decide

example :
    (Insert (NewPieceTable (strRunes "hello")) 2 (strRunes "XY")).2.pieces.map
        Piece.length = [2, 2, 3] := by decide

example :
    docRunes (Undo (Insert (NewPieceTable (strRunes "hello")) 2 (strRunes "XY")).2).2 =
      strRunes "hello" := by decide

/-! ## Preservation lemmas for `Insert`'s sub-steps -/

theorem addToBuffer_redoStack (pt : PieceTable) (s : BufSrc) (t : List Nat) :
    (addToBuffer pt s t).2.redoStack = pt.redoStack := by
  unfold addToBuffer
  split
  · rfl
  · cases s <;> rfl

theorem tryAppendToLastPiece_redoStack (pt : PieceTable) (r : Nat) (t : List Nat) :
    (tryAppendToLastPiece pt r t).2.redoStack = pt.redoStack := by
  unfold tryAppendToLastPiece
  split
  · rfl
  · simp [addToBuffer_redoStack]

theorem insertAtBoundary_redoStack (pt : PieceTable) (r : Nat) (t : List Nat) (i : Nat) :
    (insertAtBoundary pt r t i).redoStack = pt.redoStack := by
  unfold insertAtBoundary
  simp [addToBuffer_redoStack]

theorem insertInMiddle_redoStack (pt : PieceTable) (r : Nat) (t : List Nat) (i off : Nat) :
    (insertInMiddle pt r t i off).redoStack = pt.redoStack := by
  unfold insertInMiddle
  simp [addToBuffer_redoStack]

/-! ## C1 — edit sequences vs. the plain-string reference -/

/-- Claim C1. The claim fails on the code: `PieceTable.Erase` has an empty
body (it takes no range arguments and performs no mutation), so a sequence
containing an erase does not match the plain-string reference.  On the
document `"hello"`, the reference for `erase(0, 5)` is the empty string,
yet the code's erase leaves the table — and hence the document text —
untouched. -/
theorem erase_is_noop_on_hello :
    Erase (NewPieceTable (strRunes "hello")) = NewPieceTable (strRunes "hello") ∧
    docRunes (Erase (NewPieceTable (strRunes "hello"))) = strRunes "hello" ∧
    Replace (NewPieceTable (strRunes "hello")) = NewPieceTable (strRunes "hello") ∧
    refErase (strRunes "hello") 0 5 ≠
      docRunes (Erase (NewPieceTable (strRunes "hello"))) := by
  refine ⟨rfl, by decide, rfl, by decide⟩

/-! ## C3 — the split-3 insert scenario -/

/-- Claim C3. On a table initialised with `"hello"`, `Insert(2, "XY")`
returns `true` and the text becomes `"heXYllo"`; the containing piece is
split into a left part (2 runes of the original buffer), the new middle
piece (2 runes of the modify buffer) and a right part (3 runes of the
original buffer starting at byte offset 2, via the buffer's rune → byte
index); a subsequent `Undo()` returns `true` and restores `"hello"`. -/
theorem insert_split3_hello :
    (Insert (NewPieceTable (strRunes "hello")) 2 (strRunes "XY")).1 = true ∧
    docRunes (Insert (NewPieceTable (strRunes "hello")) 2 (strRunes "XY")).2 =
      strRunes "heXYllo" ∧
    (Insert (NewPieceTable (strRunes "hello")) 2 (strRunes "XY")).2.pieces.map
      (fun p => (p.source, p.offset, p.length, p.byteOff, p.byteLength)) =
      [(BufSrc.original, 0, 2, 0, 2), (BufSrc.modify, 0, 2, 0, 2),
        (BufSrc.original, 2, 3, 2, 3)] ∧
    (Undo (Insert (NewPieceTable (strRunes "hello")) 2 (strRunes "XY")).2).1 = true ∧
    docRunes (Undo (Insert (NewPieceTable (strRunes "hello")) 2 (strRunes "XY")).2).2 =
      strRunes "hello" := by
  decide

/-! ## C5 — `Insert` precondition semantics -/

/-- Claim C5. For every table, an `Insert` at a rune index outside
`[0, seqLength]` returns `false` and mutates nothing — the returned table
is the receiver itself, so text, pieces, lengths and both stacks are
unchanged; at an index inside the range `Insert` returns `true` and the
redo stack of the result is empty (it is cleared on every successful
insert). -/
theorem insert_range_semantics (pt : PieceTable) (runeIndex : Int) (text : List Nat) :
    (runeIndex < 0 ∨ runeIndex > (pt.seqLength : Int) →
      Insert pt runeIndex text = (false, pt)) ∧
    (0 ≤ runeIndex → runeIndex ≤ (pt.seqLength : Int) →
      (Insert pt runeIndex text).1 = true ∧
      (Insert pt runeIndex text).2.redoStack = []) := by
  constructor
  · intro h
    unfold Insert
    rw [if_pos (Or.symm h)]
  · intro h0 hle
    have hguard : ¬(runeIndex > (pt.seqLength : Int) ∨ runeIndex < 0) := by
      push_neg
      exact ⟨hle, h0⟩
    unfold Insert
    rw [if_neg hguard]
    dsimp only
    split
    · constructor
      · rfl
      · rename_i htr
        have := tryAppendToLastPiece_redoStack
          { pt with redoStack := [] } runeIndex.toNat text
        simpa using this
    · split
      · refine ⟨rfl, ?_⟩
        rw [insertAtBoundary_redoStack]
      · refine ⟨rfl, ?_⟩
        rw [insertInMiddle_redoStack]

/-- Witness for C5 at concrete inputs: index −1 is rejected without
mutation on `"hi"`, and index 1 succeeds with a cleared redo stack. -/
theorem insert_range_semantics_witness :
    Insert (NewPieceTable (strRunes "hi")) (-1) (strRunes "a") =
      (false, NewPieceTable (strRunes "hi")) ∧
    (Insert (NewPieceTable (strRunes "hi")) 1 (strRunes "a")).1 = true ∧
    (Insert (NewPieceTable (strRunes "hi")) 1 (strRunes "a")).2.redoStack = [] :=
  ⟨(insert_range_semantics (NewPieceTable (strRunes "hi")) (-1) (strRunes "a")).1
      (Or.inl (by decide)),
   (insert_range_semantics (NewPieceTable (strRunes "hi")) 1 (strRunes "a")).2
      (by decide) (by decide)⟩

/-! ## C10 — `ReadAt` end-of-file semantics -/

/-- Claim C10. `ReadAt` with an empty buffer returns `(0, nil)` for every
offset, even at or past the end of the document; for a non-empty buffer
and a non-negative offset, `io.EOF` is reported exactly when the offset is
at or past the document's byte length or fewer bytes than the buffer size
could be read. -/
theorem readAt_eof_semantics (pt : PieceTable) :
    (∀ offset : Int, ReadAt pt 0 offset = (0, false)) ∧
    (∀ (plen : Nat) (offset : Int), plen ≠ 0 → 0 ≤ offset →
      ((ReadAt pt plen offset).2 = true ↔
        (pt.seqBytes : Int) ≤ offset ∨ (ReadAt pt plen offset).1 < plen)) := by
  constructor
  · intro offset
    unfold ReadAt
    simp
  · intro plen offset hne _
    unfold ReadAt
    rw [if_neg hne]
    split
    · rename_i hoff
      simp only [Prod.snd, Prod.fst, decide_eq_true_eq, true_iff]
      exact Or.inl (by simpa [ge_iff_le] using hoff)
    · rename_i hoff
      have hoff' : ¬ (pt.seqBytes : Int) ≤ offset := by
        simpa [ge_iff_le] using hoff
      simp [hoff']

/-- Witness for C10: on the document `"hello"`, a read of 3 bytes at
offset 3 runs short (2 bytes, EOF), and the iff certifies it. -/
theorem readAt_eof_semantics_witness :
    ReadAt (NewPieceTable (strRunes "hello")) 0 99 = (0, false) ∧
    ((ReadAt (NewPieceTable (strRunes "hello")) 3 3).2 = true ↔
      ((NewPieceTable (strRunes "hello")).seqBytes : Int) ≤ 3 ∨
      (ReadAt (NewPieceTable (strRunes "hello")) 3 3).1 < 3) :=
  ⟨(readAt_eof_semantics (NewPieceTable (strRunes "hello"))).1 99,
   (readAt_eof_semantics (NewPieceTable (strRunes "hello"))).2 3 3
      (by decide) (by decide)⟩

/-! ## C2 — undo/redo round trips -/

theorem splice_subSpan_self (l : List Piece) (i n : Nat) :
    splice l i n (subSpan l i n) = l := by
  unfold splice subSpan
  have h2 : l.drop (i + n) = (l.drop i).drop n := by
    rw [List.drop_drop]
  rw [List.append_assoc, h2, List.take_append_drop, List.take_append_drop]

theorem take_splice (l : List Piece) (i n : Nat) (ps : List Piece)
    (hi : i ≤ l.length) :
    (splice l i n ps).take i = l.take i := by
  unfold splice
  have h1 : (l.take i).length = i := by
    rw [List.length_take]
    omega
  rw [List.append_assoc, List.take_append_eq_append_take, h1, Nat.sub_self,
    List.take_zero, List.append_nil, List.take_take, Nat.min_self]

theorem drop_splice (l : List Piece) (i n : Nat) (ps : List Piece)
    (hi : i ≤ l.length) :
    (splice l i n ps).drop (i + ps.length) = l.drop (i + n) := by
  unfold splice
  have h1 : (l.take i ++ ps).length = i + ps.length := by
    rw [List.length_append, List.length_take]
    omega
  have h2 := List.drop_left (l.take i ++ ps) (l.drop (i + n))
  rw [h1] at h2
  rw [h2]

theorem subSpan_splice (l : List Piece) (i n : Nat) (ps : List Piece)
    (hi : i ≤ l.length) :
    subSpan (splice l i n ps) i ps.length = ps := by
  unfold splice subSpan
  have h1 : (l.take i).length = i := by
    rw [List.length_take]
    omega
  have h2 := List.drop_left (l.take i) (ps ++ l.drop (i + n))
  rw [h1] at h2
  rw [List.append_assoc, h2, List.take_left]

theorem subSpan_length (l : List Piece) (i n : Nat) (h : i + n ≤ l.length) :
    (subSpan l i n).length = n := by
  unfold subSpan
  rw [List.length_take, List.length_drop]
  omega

/-- Claim C2. When the undo stack is non-empty and its top range denotes a
real span of the piece list, `Undo()` succeeds, pops that one entry,
pushes the replaced range onto the redo stack, and a following `Redo()`
restores the entire table — in particular the document text — to its
pre-`Undo` state; symmetrically for a non-empty redo stack. -/
theorem undo_redo_roundtrip (pt : PieceTable) (rng : PieceRange)
    (rest : List PieceRange) :
    (pt.undoStack = rng :: rest → rng.start + rng.count ≤ pt.pieces.length →
      (Undo pt).1 = true ∧
      (Undo pt).2.undoStack = rest ∧
      (Undo pt).2.redoStack.length = pt.redoStack.length + 1 ∧
      (Redo (Undo pt).2).1 = true ∧
      (Redo (Undo pt).2).2 = pt ∧
      docRunes (Redo (Undo pt).2).2 = docRunes pt) ∧
    (pt.redoStack = rng :: rest → rng.start + rng.count ≤ pt.pieces.length →
      (Redo pt).1 = true ∧
      (Redo pt).2.redoStack = rest ∧
      (Redo pt).2.undoStack.length = pt.undoStack.length + 1 ∧
      (Undo (Redo pt).2).1 = true ∧
      (Undo (Redo pt).2).2 = pt ∧
      docRunes (Undo (Redo pt).2).2 = docRunes pt) := by
  obtain ⟨ob, mb, sl, sb, us, rs, pcs, la, laei, lip, np⟩ := pt
  obtain ⟨st, cnt, ps, rsl, rsb, ri⟩ := rng
  constructor
  · intro hstack hok
    simp only at hstack hok
    subst hstack
    have h1 : splice (splice pcs st cnt ps) st ps.length (subSpan pcs st cnt) = pcs := by
      show (splice pcs st cnt ps).take st ++ subSpan pcs st cnt ++
          (splice pcs st cnt ps).drop (st + ps.length) = pcs
      rw [take_splice pcs st cnt ps (by omega), drop_splice pcs st cnt ps (by omega)]
      exact splice_subSpan_self pcs st cnt
    have h2 : subSpan (splice pcs st cnt ps) st ps.length = ps :=
      subSpan_splice pcs st cnt ps (by omega)
    have h3 : (subSpan pcs st cnt).length = cnt := subSpan_length pcs st cnt hok
    have hstate :
        (Redo (Undo (PieceTable.mk ob mb sl sb (PieceRange.mk st cnt ps rsl rsb ri :: rest)
            rs pcs la laei lip np)).2).2 =
          PieceTable.mk ob mb sl sb (PieceRange.mk st cnt ps rsl rsb ri :: rest)
            rs pcs la laei lip np := by
      show PieceTable.mk ob mb sl sb
          (PieceRange.mk st (subSpan pcs st cnt).length
              (subSpan (splice pcs st cnt ps) st ps.length) rsl rsb ri :: rest)
          rs (splice (splice pcs st cnt ps) st ps.length (subSpan pcs st cnt))
          la laei lip np = _
      rw [h1, h2, h3]
    exact ⟨rfl, rfl, rfl, rfl, hstate, by rw [hstate]⟩
  · intro hstack hok
    simp only at hstack hok
    subst hstack
    have h1 : splice (splice pcs st cnt ps) st ps.length (subSpan pcs st cnt) = pcs := by
      show (splice pcs st cnt ps).take st ++ subSpan pcs st cnt ++
          (splice pcs st cnt ps).drop (st + ps.length) = pcs
      rw [take_splice pcs st cnt ps (by omega), drop_splice pcs st cnt ps (by omega)]
      exact splice_subSpan_self pcs st cnt
    have h2 : subSpan (splice pcs st cnt ps) st ps.length = ps :=
      subSpan_splice pcs st cnt ps (by omega)
    have h3 : (subSpan pcs st cnt).length = cnt := subSpan_length pcs st cnt hok
    have hstate :
        (Undo (Redo (PieceTable.mk ob mb sl sb us (PieceRange.mk st cnt ps rsl rsb ri :: rest)
            pcs la laei lip np)).2).2 =
          PieceTable.mk ob mb sl sb us (PieceRange.mk st cnt ps rsl rsb ri :: rest)
            pcs la laei lip np := by
      show PieceTable.mk ob mb sl sb
          (us)
          (PieceRange.mk st (subSpan pcs st cnt).length
              (subSpan (splice pcs st cnt ps) st ps.length) rsl rsb ri :: rest)
          (splice (splice pcs st cnt ps) st ps.length (subSpan pcs st cnt))
          la laei lip np = _
      rw [h1, h2, h3]
    exact ⟨rfl, rfl, rfl, rfl, hstate, by rw [hstate]⟩

/-- Witness for C2: on the table obtained by inserting `"XY"` into
`"hello"`, undo followed by redo reproduces the exact table. -/
theorem undo_redo_roundtrip_witness :
    (Undo (Insert (NewPieceTable (strRunes "hello")) 2 (strRunes "XY")).2).1 = true ∧
    (Redo (Undo (Insert (NewPieceTable (strRunes "hello")) 2 (strRunes "XY")).2).2).2 =
      (Insert (NewPieceTable (strRunes "hello")) 2 (strRunes "XY")).2 := by
  have h := (undo_redo_roundtrip
      (Insert (NewPieceTable (strRunes "hello")) 2 (strRunes "XY")).2
      { start := 0, count := 3,
        pieces := [{ pid := 0, source := .original, offset := 0, length := 5,
                     byteOff := 0, byteLength := 5 }],
        seqLength := 5, seqBytes := 5, runeIndex := 2 }
      []).1 (by decide) (by decide)
  exact ⟨h.1, h.2.2.2.2.1⟩

/-! ## C4 — the coalescing rule -/

theorem addToBuffer_pieces (pt : PieceTable) (s : BufSrc) (t : List Nat) :
    (addToBuffer pt s t).2.pieces = pt.pieces := by
  unfold addToBuffer
  split
  · rfl
  · cases s <;> rfl

theorem addToBuffer_undoStack (pt : PieceTable) (s : BufSrc) (t : List Nat) :
    (addToBuffer pt s t).2.undoStack = pt.undoStack := by
  unfold addToBuffer
  split
  · rfl
  · cases s <;> rfl

theorem splice_length (l : List Piece) (i n : Nat) (repl : List Piece) :
    (splice l i n repl).length = min i l.length + repl.length + (l.length - (i + n)) := by
  unfold splice
  simp only [List.length_append, List.length_take, List.length_drop]

/-- The fast-path guard holds exactly when the four coalescing conditions
do (with the text containing at most one rune). -/
theorem tryAppendToLastPiece_true_iff (pt : PieceTable) (r : Nat) (t : List Nat) :
    (tryAppendToLastPiece pt r t).1 = true ↔
      (pt.lastAction = PtAction.actionInsert ∧ r = pt.lastActionEndIdx ∧
        t.length ≤ 1 ∧ pt.lastInsertPiece ≠ none) := by
  unfold tryAppendToLastPiece
  split
  · rename_i hg
    constructor
    · intro hfalse
      exact absurd hfalse (by simp)
    · intro hP
      exfalso
      rcases hg with hone | hone | hone | hone
      · exact hone hP.1
      · exact hone hP.2.1
      · exact hP.2.2.2 hone
      · exact absurd hP.2.2.1 (by omega)
  · rename_i hg
    push_neg at hg
    constructor
    · intro _
      exact ⟨hg.1, hg.2.1, by omega, hg.2.2.1⟩
    · intro _
      rfl

theorem tryAppendToLastPiece_true_counts (pt : PieceTable) (r : Nat) (t : List Nat) :
    (tryAppendToLastPiece pt r t).2.pieces.length = pt.pieces.length ∧
    (tryAppendToLastPiece pt r t).2.undoStack = pt.undoStack := by
  unfold tryAppendToLastPiece
  split
  · exact ⟨rfl, rfl⟩
  · constructor
    · simp [addToBuffer_pieces]
    · simp [addToBuffer_undoStack]

theorem insertAtBoundary_counts (pt : PieceTable) (r : Nat) (t : List Nat) (i : Nat) :
    (insertAtBoundary pt r t i).pieces.length = pt.pieces.length + 1 ∧
    (insertAtBoundary pt r t i).undoStack.length = pt.undoStack.length + 1 := by
  unfold insertAtBoundary
  constructor
  · simp only [splice_length, addToBuffer_pieces, List.length_cons, List.length_nil]
    omega
  · simp [addToBuffer_undoStack]

theorem insertInMiddle_counts (pt : PieceTable) (r : Nat) (t : List Nat) (i off : Nat) :
    pt.pieces.length + 2 ≤ (insertInMiddle pt r t i off).pieces.length ∧
    (insertInMiddle pt r t i off).undoStack.length = pt.undoStack.length + 1 := by
  unfold insertInMiddle
  constructor
  · simp only [splice_length, addToBuffer_pieces]
    simp only [List.length_cons, List.length_nil]
    omega
  · simp [addToBuffer_undoStack]

/-- Claim C4, amended. An in-range `Insert(i, text)` adds no new piece and
pushes no new undo entry exactly when the last action was an insert, `i`
equals the last action's end index, the text contains **at most** one rune
(the code's guard is `RuneCountInString(text) > 1`, so the empty string
also coalesces — this is the one amendment to the claim), and the
last-inserted piece is non-null.  Consequently the three advancing
single-rune inserts `a`,`b`,`c` on an empty document leave exactly one
piece and one undo entry and produce `"abc"` (and one `Undo` empties the
document), while a two-rune insert or a non-adjacent single-rune insert
starts a new undo entry. -/
theorem insert_coalesce_semantics :
    (∀ (pt : PieceTable) (i : Nat) (text : List Nat), i ≤ pt.seqLength →
      (((Insert pt (i : Int) text).2.pieces.length = pt.pieces.length ∧
        (Insert pt (i : Int) text).2.undoStack.length = pt.undoStack.length) ↔
       (pt.lastAction = PtAction.actionInsert ∧ i = pt.lastActionEndIdx ∧
        text.length ≤ 1 ∧ pt.lastInsertPiece ≠ none))) ∧
    docRunes coalesceDemo = strRunes "abc" ∧
    coalesceDemo.pieces.length = 1 ∧
    coalesceDemo.undoStack.length = 1 ∧
    docRunes (Undo coalesceDemo).2 = [] ∧
    (Insert coalesceDemo 3 (strRunes "XY")).2.undoStack.length = 2 ∧
    (Insert coalesceDemo 1 (strRunes "z")).2.undoStack.length = 2 := by
  refine ⟨?_, by decide, by decide, by decide, by decide, by decide, by decide⟩
  intro pt i text h
  have hguard : ¬((i : Int) > (pt.seqLength : Int) ∨ (i : Int) < 0) := by
    push_neg
    constructor
    · exact_mod_cast h
    · exact Int.ofNat_nonneg i
  unfold Insert
  rw [if_neg hguard, Int.toNat_natCast]
  dsimp only
  split
  · rename_i htr
    rw [tryAppendToLastPiece_true_iff] at htr
    dsimp only at htr
    have hcnt := tryAppendToLastPiece_true_counts { pt with redoStack := [] } i text
    dsimp only at hcnt
    constructor
    · intro _
      exact ⟨htr.1, htr.2.1, htr.2.2.1, htr.2.2.2⟩
    · intro _
      exact ⟨hcnt.1, by rw [hcnt.2]⟩
  · rename_i htr
    have hP : ¬(pt.lastAction = PtAction.actionInsert ∧ i = pt.lastActionEndIdx ∧
        text.length ≤ 1 ∧ pt.lastInsertPiece ≠ none) := by
      intro hPP
      apply htr
      rw [tryAppendToLastPiece_true_iff]
      dsimp only
      exact ⟨hPP.1, hPP.2.1, hPP.2.2.1, hPP.2.2.2⟩
    split
    · have hcnt := insertAtBoundary_counts { pt with redoStack := [] } i text
        (findPiece pt.pieces i).1
      dsimp only at hcnt
      constructor
      · intro hcounts
        exfalso
        have h1 := hcnt.1
        have h2 := hcounts.1
        dsimp only at h2
        omega
      · intro hPP
        exact absurd hPP hP
    · have hcnt := insertInMiddle_counts { pt with redoStack := [] } i text
        (findPiece pt.pieces i).1 (findPiece pt.pieces i).2
      dsimp only at hcnt
      constructor
      · intro hcounts
        exfalso
        have h1 := hcnt.1
        have h2 := hcounts.1
        dsimp only at h2
        omega
      · intro hPP
        exact absurd hPP hP

/-- Witness for C4's quantified part: on the demo table, a fourth adjacent
single-rune insert again adds no piece and no undo entry. -/
theorem insert_coalesce_semantics_witness :
    (Insert coalesceDemo (3 : Nat) (strRunes "d")).2.pieces.length =
      coalesceDemo.pieces.length ∧
    (Insert coalesceDemo (3 : Nat) (strRunes "d")).2.undoStack.length =
      coalesceDemo.undoStack.length :=
  (insert_coalesce_semantics.1 coalesceDemo 3 (strRunes "d") (by decide)).mpr
    ⟨by decide, by decide, by decide, by decide⟩

/-- Claim C4 counterexample. The claim's "exactly when …, text is a single
rune, …" fails as stated: inserting the *empty* string right after a
prior insert also coalesces — `Insert` returns `true`, no piece is added
and no undo entry is pushed — although the empty string is not a single
rune. -/
theorem insert_coalesce_counterexample :
    (Insert (Insert (NewPieceTable []) 0 (strRunes "a")).2 1 []).1 = true ∧
    (Insert (Insert (NewPieceTable []) 0 (strRunes "a")).2 1 []).2.pieces.length =
      (Insert (NewPieceTable []) 0 (strRunes "a")).2.pieces.length ∧
    (Insert (Insert (NewPieceTable []) 0 (strRunes "a")).2 1 []).2.undoStack.length =
      (Insert (NewPieceTable []) 0 (strRunes "a")).2.undoStack.length ∧
    ([] : List Nat).length ≠ 1 := by
  decide

/-! ## C6 — rune ↔ byte offset translation -/

theorem runesOf_nil (pt : PieceTable) : runesOf pt [] = [] := rfl

theorem runesOf_cons (pt : PieceTable) (p : Piece) (ps : List Piece) :
    runesOf pt (p :: ps) = pieceRunes pt p ++ runesOf pt ps := rfl

theorem docRunes_eq_runesOf (pt : PieceTable) : docRunes pt = runesOf pt pt.pieces := rfl

theorem pieceRunes_length (pt : PieceTable) (p : Piece) (h : PieceOk pt p) :
    (pieceRunes pt p).length = p.length := by
  unfold pieceRunes
  rw [List.length_take, List.length_drop]
  have := h.1
  omega

theorem pieceOk_byteLength (pt : PieceTable) (p : Piece) (h : PieceOk pt p) :
    p.byteLength = utf8Len (pieceRunes pt p) :=
  h.2

theorem runesOf_length (pt : PieceTable) (ps : List Piece)
    (hok : ∀ p ∈ ps, PieceOk pt p) :
    (runesOf pt ps).length = (ps.map Piece.length).sum := by
  induction ps with
  | nil => rfl
  | cons p rest ih =>
    rw [runesOf_cons, List.length_append, List.map_cons, List.sum_cons,
      pieceRunes_length pt p (hok p (List.mem_cons_self p rest)),
      ih (fun q hq => hok q (List.mem_cons_of_mem p hq))]

theorem utf8Len_runesOf (pt : PieceTable) (ps : List Piece)
    (hok : ∀ p ∈ ps, PieceOk pt p) :
    utf8Len (runesOf pt ps) = (ps.map Piece.byteLength).sum := by
  induction ps with
  | nil => rfl
  | cons p rest ih =>
    rw [runesOf_cons, utf8Len_append,
      ← pieceOk_byteLength pt p (hok p (List.mem_cons_self p rest)),
      ih (fun q hq => hok q (List.mem_cons_of_mem p hq)), List.map_cons,
      List.sum_cons]

theorem runeOffsetLoop_spec (pt : PieceTable) (ps : List Piece)
    (hok : ∀ p ∈ ps, PieceOk pt p) :
    ∀ (bytes runes runeOff : Nat), runes ≤ runeOff →
      runeOffsetLoop pt ps bytes runes runeOff =
        bytes + utf8Len ((runesOf pt ps).take (runeOff - runes)) := by
  induction ps with
  | nil =>
    intro bytes runes runeOff _
    simp [runeOffsetLoop, runesOf_nil, utf8Len]
  | cons p rest ih =>
    intro bytes runes runeOff hruns
    have hpOk : PieceOk pt p := hok p (List.mem_cons_self p rest)
    have hplen : (pieceRunes pt p).length = p.length := pieceRunes_length pt p hpOk
    unfold runeOffsetLoop
    split
    · rename_i hlt
      have hk : runeOff - runes < p.length := by omega
      rw [runesOf_cons, List.take_append_eq_append_take, hplen]
      have hz : runeOff - runes - p.length = 0 := by omega
      rw [hz, List.take_zero, List.append_nil]
      congr 1
      show utf8Len (((getBuf pt p.source).drop p.offset).take (runeOff - runes)) = _
      unfold pieceRunes
      rw [List.take_take, Nat.min_eq_left (by omega)]
    · rename_i hge
      have hge' : runes + p.length ≤ runeOff := by omega
      rw [ih (fun q hq => hok q (List.mem_cons_of_mem p hq))
        (bytes + p.byteLength) (runes + p.length) runeOff (by omega)]
      have htk : (pieceRunes pt p).take (runeOff - runes) = pieceRunes pt p :=
        List.take_of_length_le (by rw [hplen]; omega)
      rw [runesOf_cons, List.take_append_eq_append_take, htk, hplen, utf8Len_append,
        ← pieceOk_byteLength pt p hpOk]
      have harith : runeOff - runes - p.length = runeOff - (runes + p.length) := by omega
      rw [harith]
      omega

theorem docRunes_length (pt : PieceTable) (hwf : WF pt) :
    (docRunes pt).length = pt.seqLength := by
  rw [docRunes_eq_runesOf, runesOf_length pt pt.pieces hwf.1, ← hwf.2.1]

theorem utf8Len_docRunes (pt : PieceTable) (hwf : WF pt) :
    utf8Len (docRunes pt) = pt.seqBytes := by
  rw [docRunes_eq_runesOf, utf8Len_runesOf pt pt.pieces hwf.1, ← hwf.2.2]

/-- Lemma: `RuneOffset` agrees with the forward byte walk: the byte offset of
rune `r` is the UTF-8 length of the first `r` runes of the document. -/
theorem runeOffset_eq_take (pt : PieceTable) (r : Nat) (hwf : WF pt)
    (hr : r ≤ pt.seqLength) :
    RuneOffset pt r = utf8Len ((docRunes pt).take r) := by
  unfold RuneOffset
  split
  · rename_i h0
    have hlen : (docRunes pt).length = 0 := by
      rw [docRunes_length pt hwf, h0]
    rw [List.eq_nil_of_length_eq_zero hlen]
    simp [utf8Len]
  · rename_i h0
    split
    · rename_i hge
      have hr' : r = pt.seqLength := by omega
      rw [hr', ← docRunes_length pt hwf, List.take_length,
        utf8Len_docRunes pt hwf]
    · rename_i hlt
      rw [runeOffsetLoop_spec pt pt.pieces hwf.1 0 0 r (Nat.zero_le r)]
      rw [docRunes_eq_runesOf, Nat.sub_zero, Nat.zero_add]

theorem runeIndexAtByte_take (l : List Nat) :
    ∀ r : Nat, r ≤ l.length → runeIndexAtByte l (utf8Len (l.take r)) = r := by
  induction l with
  | nil =>
    intro r hr
    simp only [List.length_nil, Nat.le_zero] at hr
    subst hr
    rfl
  | cons c cs ih =>
    intro r hr
    cases r with
    | zero =>
      unfold runeIndexAtByte
      rw [List.take_zero, if_pos (by simpa [utf8Len] using utf8RuneLen_pos c)]
    | succ r' =>
      have hr' : r' ≤ cs.length := by
        simpa using hr
      unfold runeIndexAtByte
      rw [List.take_succ_cons, utf8Len_cons, if_neg (by omega),
        Nat.add_sub_cancel_left, ih r' hr']
      omega

/-- Claim C6. For every well-formed document and every rune index `r` in
range, `RuneOffset(r)` agrees with the forward byte walk (the UTF-8 length
of the first `r` runes of the document); converting the resulting byte
offset back to a rune index yields `r` again; and converting that rune
index forward once more reproduces the same byte offset, i.e. the
translation is a bijection between rune indices and rune-boundary byte
offsets. -/
theorem runeOffset_roundtrip (pt : PieceTable) (r : Nat) (hwf : WF pt)
    (hr : r ≤ pt.seqLength) :
    RuneOffset pt r = utf8Len ((docRunes pt).take r) ∧
    runeIndexAtByte (docRunes pt) (RuneOffset pt r) = r ∧
    RuneOffset pt (runeIndexAtByte (docRunes pt) (RuneOffset pt r)) =
      RuneOffset pt r := by
  have h1 : RuneOffset pt r = utf8Len ((docRunes pt).take r) :=
    runeOffset_eq_take pt r hwf hr
  have hlen : r ≤ (docRunes pt).length := by
    rw [docRunes_length pt hwf]
    exact hr
  have h2 : runeIndexAtByte (docRunes pt) (RuneOffset pt r) = r := by
    rw [h1]
    exact runeIndexAtByte_take (docRunes pt) r hlen
  refine ⟨h1, h2, ?_⟩
  rw [h2]

/-- Witness for C6 on a three-piece document holding multi-byte runes
(`"h"` · `"中"` · `"é"` after a middle insert). -/
theorem runeOffset_roundtrip_witness :
    RuneOffset (Insert (NewPieceTable [104, 233]) 1 [20013]).2 2 =
      utf8Len ((docRunes (Insert (NewPieceTable [104, 233]) 1 [20013]).2).take 2) ∧
    runeIndexAtByte (docRunes (Insert (NewPieceTable [104, 233]) 1 [20013]).2)
      (RuneOffset (Insert (NewPieceTable [104, 233]) 1 [20013]).2 2) = 2 :=
  ⟨(runeOffset_roundtrip (Insert (NewPieceTable [104, 233]) 1 [20013]).2 2
      (by decide) (by decide)).1,
   (runeOffset_roundtrip (Insert (NewPieceTable [104, 233]) 1 [20013]).2 2
      (by decide) (by decide)).2.1⟩

example :
    (recompute 4
      [{ x := 0, advance := 10, towardOrigin := false, lineBreak := false },
       { x := 0, advance := 5, towardOrigin := true, lineBreak := false },
       { x := 0, advance := 7, towardOrigin := true, lineBreak := false },
       { x := 0, advance := 3, towardOrigin := false, lineBreak := false }]).map
      Glyph.x = [4, 21, 14, 26] := by decide

example :
    ((recompute 4
      [{ x := 0, advance := 10, towardOrigin := false, lineBreak := false },
       { x := 0, advance := 5, towardOrigin := true, lineBreak := false },
       { x := 0, advance := 7, towardOrigin := true, lineBreak := false },
       { x := 0, advance := 3, towardOrigin := false, lineBreak := false }]).getLastD
      dfltGlyph).lineBreak = true := by decide

/-! ## C7 — Bidi layout lemmas -/

theorem runWidth_cons (a : Glyph) (l : List Glyph) :
    runWidth (a :: l) = a.advance + runWidth l := by
  simp [runWidth]

theorem runWidth_nonneg (run : List Glyph) (h : ∀ g ∈ run, 0 ≤ g.advance) :
    0 ≤ runWidth run := by
  refine List.sum_nonneg ?_
  intro a ha
  obtain ⟨g, hg, rfl⟩ := List.mem_map.mp ha
  exact h g hg

theorem runsWidth_cons (r : List Glyph) (rs : List (List Glyph)) :
    runsWidth (r :: rs) = runWidth r + runsWidth rs := by
  simp [runsWidth]

theorem runsWidth_nonneg (runs : List (List Glyph))
    (h : ∀ r ∈ runs, ∀ g ∈ r, 0 ≤ g.advance) : 0 ≤ runsWidth runs := by
  refine List.sum_nonneg ?_
  intro a ha
  obtain ⟨r, hr, rfl⟩ := List.mem_map.mp ha
  exact runWidth_nonneg r (h r hr)

theorem flatten_runStep (g : Glyph) (acc : List (List Glyph)) :
    (runStep g acc).flatten = g :: acc.flatten := by
  match acc with
  | [] => rfl
  | [] :: rest => simp [runStep]
  | (h :: t) :: rest =>
    simp only [runStep]
    split <;> simp

theorem flatten_splitRuns (l : List Glyph) : (splitRuns l).flatten = l := by
  induction l with
  | nil => rfl
  | cons g gs ih =>
    show (runStep g (splitRuns gs)).flatten = g :: gs
    rw [flatten_runStep, ih]

theorem runStep_ne_nil (g : Glyph) (acc : List (List Glyph))
    (h : ∀ r ∈ acc, r ≠ []) : ∀ r ∈ runStep g acc, r ≠ [] := by
  match acc with
  | [] =>
    intro r hr
    simp only [runStep, List.mem_singleton] at hr
    subst hr
    exact List.cons_ne_nil g []
  | [] :: rest =>
    intro r hr
    simp only [runStep, List.mem_cons] at hr
    rcases hr with hr | hr
    · subst hr
      exact List.cons_ne_nil g []
    · exact h r (List.mem_cons_of_mem [] hr)
  | (a :: t) :: rest =>
    intro r hr
    simp only [runStep] at hr
    split at hr
    · rcases List.mem_cons.mp hr with hr | hr
      · subst hr
        exact List.cons_ne_nil g (a :: t)
      · exact h r (List.mem_cons_of_mem (a :: t) hr)
    · rcases List.mem_cons.mp hr with hr | hr
      · subst hr
        exact List.cons_ne_nil g []
      · exact h r hr

theorem splitRuns_ne_nil (l : List Glyph) : ∀ r ∈ splitRuns l, r ≠ [] := by
  induction l with
  | nil =>
    intro r hr
    simp [splitRuns] at hr
  | cons g gs ih =>
    exact runStep_ne_nil g (splitRuns gs) ih

theorem splitRuns_nonempty (l : List Glyph) (h : l ≠ []) : splitRuns l ≠ [] := by
  intro he
  apply h
  have := flatten_splitRuns l
  rw [he] at this
  exact this.symm

theorem ltrAssign_map_advance (run : List Glyph) :
    ∀ c : Int, (ltrAssign c run).map Glyph.advance = run.map Glyph.advance := by
  induction run with
  | nil => intro c; rfl
  | cons a as ih =>
    intro c
    simp only [ltrAssign, List.map_cons, ih]

theorem rtlAssign_map_advance (run : List Glyph) :
    ∀ c : Int, (rtlAssign c run).map Glyph.advance = run.map Glyph.advance := by
  induction run with
  | nil => intro c; rfl
  | cons a as ih =>
    intro c
    simp only [rtlAssign, List.map_cons, ih]

theorem ltrAssign_bounds (run : List Glyph) :
    ∀ c : Int, (∀ g ∈ run, 0 ≤ g.advance) →
      ∀ g ∈ ltrAssign c run, c ≤ g.x ∧ g.x + g.advance ≤ c + runWidth run := by
  induction run with
  | nil =>
    intro c _ g hg
    simp [ltrAssign] at hg
  | cons a as ih =>
    intro c hadv g hg
    have h0 : 0 ≤ a.advance := hadv a (List.mem_cons_self a as)
    have hw : 0 ≤ runWidth as :=
      runWidth_nonneg as (fun q hq => hadv q (List.mem_cons_of_mem a hq))
    have hrc := runWidth_cons a as
    simp only [ltrAssign, List.mem_cons] at hg
    rcases hg with hg | hg
    · subst hg
      dsimp only
      omega
    · have := ih (c + a.advance) (fun q hq => hadv q (List.mem_cons_of_mem a hq)) g hg
      omega

theorem rtlAssign_bounds (run : List Glyph) :
    ∀ c : Int, (∀ g ∈ run, 0 ≤ g.advance) →
      ∀ g ∈ rtlAssign c run, c - runWidth run ≤ g.x ∧ g.x + g.advance ≤ c := by
  induction run with
  | nil =>
    intro c _ g hg
    simp [rtlAssign] at hg
  | cons a as ih =>
    intro c hadv g hg
    have h0 : 0 ≤ a.advance := hadv a (List.mem_cons_self a as)
    have hw : 0 ≤ runWidth as :=
      runWidth_nonneg as (fun q hq => hadv q (List.mem_cons_of_mem a hq))
    have hrc := runWidth_cons a as
    simp only [rtlAssign, List.mem_cons] at hg
    rcases hg with hg | hg
    · subst hg
      dsimp only
      omega
    · have := ih (c - a.advance) (fun q hq => hadv q (List.mem_cons_of_mem a hq)) g hg
      omega

theorem ltrAssign_attains_left (c : Int) (a : Glyph) (as : List Glyph) :
    ∃ g ∈ ltrAssign c (a :: as), g.x = c := by
  simp only [ltrAssign]
  exact ⟨{ a with x := c }, List.mem_cons_self _ _, rfl⟩

theorem rtlAssign_attains_right (c : Int) (a : Glyph) (as : List Glyph) :
    ∃ g ∈ rtlAssign c (a :: as), g.x + g.advance = c := by
  simp only [rtlAssign]
  refine ⟨{ a with x := c - a.advance }, List.mem_cons_self _ _, ?_⟩
  dsimp only
  omega

theorem ltrAssign_attains_right (as : List Glyph) :
    ∀ (a : Glyph) (c : Int),
      ∃ g ∈ ltrAssign c (a :: as), g.x + g.advance = c + runWidth (a :: as) := by
  induction as with
  | nil =>
    intro a c
    simp only [ltrAssign]
    refine ⟨{ a with x := c }, List.mem_cons_self _ _, ?_⟩
    dsimp only
    rw [runWidth_cons]
    show c + a.advance = c + (a.advance + runWidth [])
    show c + a.advance = c + (a.advance + 0)
    omega
  | cons b bs ih =>
    intro a c
    obtain ⟨g, hg, hx⟩ := ih b (c + a.advance)
    refine ⟨g, ?_, ?_⟩
    · simp only [ltrAssign]
      exact List.mem_cons_of_mem _ hg
    · rw [hx, runWidth_cons a (b :: bs)]
      omega

theorem rtlAssign_attains_left (as : List Glyph) :
    ∀ (a : Glyph) (c : Int),
      ∃ g ∈ rtlAssign c (a :: as), g.x = c - runWidth (a :: as) := by
  induction as with
  | nil =>
    intro a c
    simp only [rtlAssign]
    refine ⟨{ a with x := c - a.advance }, List.mem_cons_self _ _, ?_⟩
    dsimp only
    rw [runWidth_cons]
    show c - a.advance = c - (a.advance + runWidth [])
    show c - a.advance = c - (a.advance + 0)
    omega
  | cons b bs ih =>
    intro a c
    obtain ⟨g, hg, hx⟩ := ih b (c - a.advance)
    refine ⟨g, ?_, ?_⟩
    · simp only [rtlAssign]
      exact List.mem_cons_of_mem _ hg
    · rw [hx, runWidth_cons a (b :: bs)]
      omega

theorem layoutRun_map_advance (b : Int) (run : List Glyph) :
    (layoutRun b run).map Glyph.advance = run.map Glyph.advance := by
  cases run with
  | nil => rfl
  | cons a as =>
    simp only [layoutRun]
    split
    · exact rtlAssign_map_advance (a :: as) _
    · exact ltrAssign_map_advance (a :: as) _

theorem layoutRun_bounds (b : Int) (run : List Glyph)
    (hadv : ∀ g ∈ run, 0 ≤ g.advance) :
    ∀ g ∈ layoutRun b run, b ≤ g.x ∧ g.x + g.advance ≤ b + runWidth run := by
  cases run with
  | nil =>
    intro g hg
    simp [layoutRun] at hg
  | cons a as =>
    intro g hg
    simp only [layoutRun] at hg
    split at hg
    · have := rtlAssign_bounds (a :: as) (b + runWidth (a :: as)) hadv g hg
      omega
    · have := ltrAssign_bounds (a :: as) b hadv g hg
      omega

theorem layoutRun_attains_left (b : Int) (a : Glyph) (as : List Glyph) :
    ∃ g ∈ layoutRun b (a :: as), g.x = b := by
  simp only [layoutRun]
  split
  · obtain ⟨g, hg, hx⟩ := rtlAssign_attains_left as a (b + runWidth (a :: as))
    exact ⟨g, hg, by omega⟩
  · exact ltrAssign_attains_left b a as

theorem layoutRun_attains_right (b : Int) (a : Glyph) (as : List Glyph) :
    ∃ g ∈ layoutRun b (a :: as), g.x + g.advance = b + runWidth (a :: as) := by
  simp only [layoutRun]
  split
  · exact rtlAssign_attains_right (b + runWidth (a :: as)) a as
  · exact ltrAssign_attains_right as a b

theorem layoutRuns_map_advance (alignOff : Int) (runs : List (List Glyph)) :
    ∀ xOff : Int,
      (layoutRuns alignOff xOff runs).map Glyph.advance =
        runs.flatten.map Glyph.advance := by
  induction runs with
  | nil => intro xOff; rfl
  | cons run rest ih =>
    intro xOff
    simp only [layoutRuns, List.flatten_cons, List.map_append,
      layoutRun_map_advance, ih]

theorem layoutRuns_bounds (alignOff : Int) (runs : List (List Glyph)) :
    ∀ xOff : Int, (∀ r ∈ runs, ∀ g ∈ r, 0 ≤ g.advance) →
      ∀ g ∈ layoutRuns alignOff xOff runs,
        alignOff + xOff ≤ g.x ∧
        g.x + g.advance ≤ alignOff + xOff + runsWidth runs := by
  induction runs with
  | nil =>
    intro xOff _ g hg
    simp [layoutRuns] at hg
  | cons run rest ih =>
    intro xOff hadv g hg
    have hrc := runsWidth_cons run rest
    simp only [layoutRuns] at hg
    rcases List.mem_append.mp hg with hg | hg
    · have hb := layoutRun_bounds (alignOff + xOff) run
        (hadv run (List.mem_cons_self run rest)) g hg
      have h0 : 0 ≤ runsWidth rest :=
        runsWidth_nonneg rest (fun r hr => hadv r (List.mem_cons_of_mem run hr))
      omega
    · have hb := ih (xOff + runWidth run)
        (fun r hr => hadv r (List.mem_cons_of_mem run hr)) g hg
      have h0 : 0 ≤ runWidth run :=
        runWidth_nonneg run (hadv run (List.mem_cons_self run rest))
      omega

theorem layoutRuns_attains_left (alignOff xOff : Int) (run : List Glyph)
    (rest : List (List Glyph)) (hne : run ≠ []) :
    ∃ g ∈ layoutRuns alignOff xOff (run :: rest), g.x = alignOff + xOff := by
  cases run with
  | nil => exact absurd rfl hne
  | cons a as =>
    obtain ⟨g, hg, hx⟩ := layoutRun_attains_left (alignOff + xOff) a as
    refine ⟨g, ?_, hx⟩
    simp only [layoutRuns]
    exact List.mem_append_left _ hg

theorem layoutRuns_attains_right (alignOff : Int) (runs : List (List Glyph)) :
    ∀ xOff : Int, runs ≠ [] → (∀ r ∈ runs, r ≠ []) →
      ∃ g ∈ layoutRuns alignOff xOff runs,
        g.x + g.advance = alignOff + xOff + runsWidth runs := by
  induction runs with
  | nil =>
    intro xOff hne _
    exact absurd rfl hne
  | cons run rest ih =>
    intro xOff _ hr
    cases rest with
    | nil =>
      cases run with
      | nil => exact absurd rfl (hr [] (List.mem_cons_self [] []))
      | cons a as =>
        obtain ⟨g, hg, hx⟩ := layoutRun_attains_right (alignOff + xOff) a as
        refine ⟨g, ?_, ?_⟩
        · simp only [layoutRuns]
          exact List.mem_append_left _ hg
        · rw [hx, runsWidth_cons]
          show _ = alignOff + xOff + (runWidth (a :: as) + runsWidth [])
          show _ = alignOff + xOff + (runWidth (a :: as) + 0)
          omega
    | cons r2 rest2 =>
      obtain ⟨g, hg, hx⟩ := ih (xOff + runWidth run) (List.cons_ne_nil r2 rest2)
        (fun r hmem => hr r (List.mem_cons_of_mem run hmem))
      refine ⟨g, ?_, ?_⟩
      · simp only [layoutRuns]
        exact List.mem_append_right _ hg
      · rw [hx, runsWidth_cons run (r2 :: rest2)]
        omega

theorem runsWidth_eq_advSum (runs : List (List Glyph)) :
    runsWidth runs = advSum runs.flatten := by
  induction runs with
  | nil => rfl
  | cons run rest ih =>
    rw [runsWidth_cons, ih]
    show _ = advSum (run ++ rest.flatten)
    unfold advSum runWidth
    rw [List.map_append, List.sum_append]

theorem markLineBreakLast_map {β : Type} (f : Glyph → β)
    (hf : ∀ g : Glyph, f { g with lineBreak := true } = f g) :
    ∀ l : List Glyph, (markLineBreakLast l).map f = l.map f := by
  intro l
  induction l with
  | nil => rfl
  | cons g gs ih =>
    cases gs with
    | nil =>
      simp only [markLineBreakLast, List.map_cons, List.map_nil, hf]
    | cons g2 gs2 =>
      simp only [markLineBreakLast, List.map_cons] at ih ⊢
      rw [ih]

theorem markLineBreakLast_getLastD (l : List Glyph) (hne : l ≠ []) :
    ∀ d : Glyph, ((markLineBreakLast l).getLastD d).lineBreak = true := by
  induction l with
  | nil => exact absurd rfl hne
  | cons g gs ih =>
    intro d
    cases gs with
    | nil => rfl
    | cons g2 gs2 =>
      show ((g :: markLineBreakLast (g2 :: gs2)).getLastD d).lineBreak = true
      rw [List.getLastD_cons]
      exact ih (List.cons_ne_nil g2 gs2) g

/-- Claim C7. `Line.recompute` partitions the glyphs into maximal
equal-direction runs in logical order (`splitRuns`), lays the runs out
left to right with RTL runs filled from the run's right edge descending
and LTR runs from the left edge ascending, offset by the per-line
alignment offset (`layoutRuns`), and flags the line's final glyph as the
line break.  Consequently, for every non-empty line with non-negative
advances (in particular every mixed LTR+RTL line): the advances are
unchanged, the least glyph X is exactly `alignOff`, the greatest glyph
right edge `x + advance` is exactly `alignOff + advSum glyphs` — so the
total span of the glyphs' X-range equals the sum of their advances — and
the final glyph carries the line-break flag. -/
theorem recompute_bidi_span (alignOff : Int) (glyphs : List Glyph)
    (hne : glyphs ≠ []) (hadv : ∀ g ∈ glyphs, 0 ≤ g.advance) :
    (recompute alignOff glyphs).map Glyph.advance = glyphs.map Glyph.advance ∧
    ((recompute alignOff glyphs).map Glyph.x).minimum = (alignOff : Int) ∧
    ((recompute alignOff glyphs).map (fun g => g.x + g.advance)).maximum =
      (alignOff + advSum glyphs : Int) ∧
    ((recompute alignOff glyphs).getLastD dfltGlyph).lineBreak = true := by
  have hruns_adv : ∀ r ∈ splitRuns glyphs, ∀ g ∈ r, 0 ≤ g.advance := by
    intro r hr g hg
    refine hadv g ?_
    rw [← flatten_splitRuns glyphs]
    exact List.mem_flatten.mpr ⟨r, hr, hg⟩
  have hmapadv : (layoutRuns alignOff 0 (splitRuns glyphs)).map Glyph.advance =
      glyphs.map Glyph.advance := by
    rw [layoutRuns_map_advance, flatten_splitRuns]
  have hLne : layoutRuns alignOff 0 (splitRuns glyphs) ≠ [] := by
    intro h0
    rw [h0, List.map_nil] at hmapadv
    exact hne (List.map_eq_nil_iff.mp hmapadv.symm)
  have hWidth : runsWidth (splitRuns glyphs) = advSum glyphs := by
    rw [runsWidth_eq_advSum, flatten_splitRuns]
  have hbounds := layoutRuns_bounds alignOff (splitRuns glyphs) 0 hruns_adv
  refine ⟨?_, ?_, ?_, ?_⟩
  · show (markLineBreakLast (layoutRuns alignOff 0 (splitRuns glyphs))).map
        Glyph.advance = glyphs.map Glyph.advance
    rw [markLineBreakLast_map Glyph.advance (fun g => rfl), hmapadv]
  · show ((markLineBreakLast (layoutRuns alignOff 0 (splitRuns glyphs))).map
        Glyph.x).minimum = (alignOff : Int)
    rw [markLineBreakLast_map Glyph.x (fun g => rfl)]
    rw [List.minimum_eq_coe_iff]
    constructor
    · cases hsp : splitRuns glyphs with
      | nil => exact absurd hsp (splitRuns_nonempty glyphs hne)
      | cons run rest =>
        have hrne : run ≠ [] :=
          splitRuns_ne_nil glyphs run (hsp ▸ List.mem_cons_self run rest)
        obtain ⟨g, hg, hx⟩ := layoutRuns_attains_left alignOff 0 run rest hrne
        refine List.mem_map.mpr ⟨g, hg, ?_⟩
        omega
    · intro a ha
      obtain ⟨g, hg, rfl⟩ := List.mem_map.mp ha
      have := (hbounds g hg).1
      omega
  · show ((markLineBreakLast (layoutRuns alignOff 0 (splitRuns glyphs))).map
        (fun g => g.x + g.advance)).maximum = (alignOff + advSum glyphs : Int)
    rw [markLineBreakLast_map (fun g => g.x + g.advance) (fun g => rfl)]
    rw [List.maximum_eq_coe_iff]
    constructor
    · obtain ⟨g, hg, hx⟩ := layoutRuns_attains_right alignOff (splitRuns glyphs) 0
        (splitRuns_nonempty glyphs hne) (splitRuns_ne_nil glyphs)
      refine List.mem_map.mpr ⟨g, hg, ?_⟩
      rw [hx, hWidth]
      omega
    · intro a ha
      obtain ⟨g, hg, rfl⟩ := List.mem_map.mp ha
      have := (hbounds g hg).2
      rw [hWidth] at this
      omega
  · exact markLineBreakLast_getLastD (layoutRuns alignOff 0 (splitRuns glyphs))
      hLne dfltGlyph

/-- Witness for C7: a concrete mixed LTR/RTL line of four glyphs at
alignment offset 4 — minimum X is 4 and the maximum right edge is
`4 + (10+5+7+3)`. -/
theorem recompute_bidi_span_witness :
    (recompute 4
      [{ x := 0, advance := 10, towardOrigin := false, lineBreak := false },
       { x := 0, advance := 5, towardOrigin := true, lineBreak := false },
       { x := 0, advance := 7, towardOrigin := true, lineBreak := false },
       { x := 0, advance := 3, towardOrigin := false, lineBreak := false }]).map
        Glyph.advance =
      [{ x := (0 : Int), advance := 10, towardOrigin := false, lineBreak := false },
       { x := 0, advance := 5, towardOrigin := true, lineBreak := false },
       { x := 0, advance := 7, towardOrigin := true, lineBreak := false },
       { x := 0, advance := 3, towardOrigin := false,
         lineBreak := false }].map Glyph.advance ∧
    ((recompute 4
      [{ x := 0, advance := 10, towardOrigin := false, lineBreak := false },
       { x := 0, advance := 5, towardOrigin := true, lineBreak := false },
       { x := 0, advance := 7, towardOrigin := true, lineBreak := false },
       { x := 0, advance := 3, towardOrigin := false, lineBreak := false }]).map
        Glyph.x).minimum = (4 : Int) ∧
    ((recompute 4
      [{ x := 0, advance := 10, towardOrigin := false, lineBreak := false },
       { x := 0, advance := 5, towardOrigin := true, lineBreak := false },
       { x := 0, advance := 7, towardOrigin := true, lineBreak := false },
       { x := 0, advance := 3, towardOrigin := false, lineBreak := false }]).map
        (fun g => g.x + g.advance)).maximum =
      ((4 : Int) + advSum
        [{ x := 0, advance := 10, towardOrigin := false, lineBreak := false },
         { x := 0, advance := 5, towardOrigin := true, lineBreak := false },
         { x := 0, advance := 7, towardOrigin := true, lineBreak := false },
         { x := 0, advance := 3, towardOrigin := false, lineBreak := false }]) ∧
    ((recompute 4
      [{ x := 0, advance := 10, towardOrigin := false, lineBreak := false },
       { x := 0, advance := 5, towardOrigin := true, lineBreak := false },
       { x := 0, advance := 7, towardOrigin := true, lineBreak := false },
       { x := 0, advance := 3, towardOrigin := false, lineBreak := false }]).getLastD
      dfltGlyph).lineBreak = true :=
  recompute_bidi_span 4
    [{ x := 0, advance := 10, towardOrigin := false, lineBreak := false },
     { x := 0, advance := 5, towardOrigin := true, lineBreak := false },
     { x := 0, advance := 7, towardOrigin := true, lineBreak := false },
     { x := 0, advance := 3, towardOrigin := false, lineBreak := false }]
    (by decide) (by decide)

/-! ## C8 — session termination on terminating characters -/

/-- Claim C8. (1) For every active (non-canceled, already-initialized)
session, an input whose first character is a terminating character and
that differs from the session's recorded trigger characters invalidates
the session immediately: it becomes canceled with its prefix, prefix
range and candidate list cleared, and `Update` returns no candidates.
(2) The fall-through then may open a new session: with trigger characters
`["."]`, typing `"foo"` opens a session buffering prefix `"foo"`; a
subsequent `"."` cancels that session, and `OnText` then starts a fresh
valid session triggered by `"."` (empty prefix, candidates supplied by
the completor). -/
theorem session_terminate_semantics :
    (∀ (s : Session) (ctx : CompletionContext),
      s.canceled = false → s.state.triggered = false →
      hasTerminateChar ctx.input = true → ctx.input ≠ s.state.triggerChars →
      (sessionUpdate s ctx).1.canceled = true ∧
      (sessionUpdate s ctx).1.prefixRunes = [] ∧
      (sessionUpdate s ctx).1.prefixRange = zeroEditRange ∧
      (sessionUpdate s ctx).1.candidates = [] ∧
      (sessionUpdate s ctx).2 = []) ∧
    isValid demoAfterFoo.session = true ∧
    sessionPrefixStr demoAfterFoo.session = "foo" ∧
    sessionUpdateCanceled demoAfterFoo.session ctxDot = true ∧
    isValid demoAfterDot.session = true ∧
    sessionTrigStr demoAfterDot.session = "." ∧
    sessionPrefixStr demoAfterDot.session = "" ∧
    demoAfterDot.candidates = [1, 2] := by
  refine ⟨?_, by decide, by decide, by decide, by decide, by decide, by decide,
    by decide⟩
  intro s ctx hcanc htrig hterm hneq
  unfold sessionUpdate
  rw [if_neg (by simp [hcanc])]
  have hs1 : (if s.state.triggered then
      { s with
        candidates := s.state.completor.suggest ctx,
        state :=
          { s.state with triggerChars := ctx.input, triggered := false },
        prefixRunes := [],
        prefixRange := zeroEditRange }
    else s) = s := by
    rw [if_neg (by simp [htrig])]
  rw [hs1, if_pos ⟨hterm, hneq⟩]
  exact ⟨rfl, rfl, rfl, rfl, rfl⟩

/-- Witness for C8's quantified part: the session opened by `"foo"` is
canceled by the terminating input `"."`. -/
theorem session_terminate_semantics_witness :
    (sessionUpdate (newSession demoCompletor TriggerKind.charTrigger)
        ctxFoo).1.canceled = false ∧
    (sessionUpdate
      (sessionUpdate (newSession demoCompletor TriggerKind.charTrigger)
        ctxFoo).1 ctxDot).1.canceled = true := by
  refine ⟨by decide, ?_⟩
  exact (session_terminate_semantics.1
    (sessionUpdate (newSession demoCompletor TriggerKind.charTrigger) ctxFoo).1
    ctxDot (by decide) (by decide) (by decide) (by decide)).1

/-! ## C9 — duplicate key bindings are rejected -/

/-- Claim C9. `AddCompletor` returns the "duplicated key binding" error if
and only if some already-registered completor's trigger carries the same
key binding (same key name and same modifiers) as the new completor's
trigger; on error the completor registry is left unchanged, and otherwise
the completor is appended and no error is returned. -/
theorem addCompletor_duplicate_semantics (dc : DefaultCompletion) (c : Completor) :
    ((AddCompletor dc c).2 = true ↔
      ∃ cm ∈ dc.completors, cm.trigger.keyBinding = c.trigger.keyBinding) ∧
    ((AddCompletor dc c).2 = true → (AddCompletor dc c).1 = dc) ∧
    ((AddCompletor dc c).2 = false →
      (AddCompletor dc c).1.completors = dc.completors ++ [c]) := by
  unfold AddCompletor
  dsimp only
  split
  · rename_i hdup
    refine ⟨⟨fun _ => ?_, fun _ => rfl⟩, fun _ => rfl,
      fun hfalse => absurd hfalse (by simp)⟩
    obtain ⟨cm, hmem, hp⟩ := List.any_eq_true.mp hdup
    rw [Bool.and_eq_true, beq_iff_eq, beq_iff_eq] at hp
    exact ⟨cm, hmem, KeyBinding.ext hp.1 hp.2⟩
  · rename_i hdup
    refine ⟨⟨fun habs => absurd habs (by simp), fun hex => ?_⟩,
      fun htrue => absurd htrue (by simp), fun _ => rfl⟩
    exfalso
    obtain ⟨cm, hmem, heq⟩ := hex
    apply hdup
    refine List.any_eq_true.mpr ⟨cm, hmem, ?_⟩
    rw [Bool.and_eq_true, beq_iff_eq, beq_iff_eq, heq]
    exact ⟨rfl, rfl⟩

/-- Witness for C9: registering a second completor with the same key
binding (`("ctrl-space", 3)`) fails and leaves the registry unchanged. -/
theorem addCompletor_duplicate_semantics_witness :
    (AddCompletor kbCompletion kbCompletor2).1 = kbCompletion :=
  (addCompletor_duplicate_semantics kbCompletion kbCompletor2).2.1 rfl

end Gvcode
